import Mathlib

/-!
# Verification of the `ugly` pixel-font text-layout engine

A shallow embedding, in Lean 4, of the core of the `ugly` crate:

* geometry primitives (`src/metrics/{length,point,size,rect,anchor}.rs`);
* the width-override and kerning compilers (`src/font/metrics/{width,kerning}.rs`);
* glyph grid addressing (`src/font/metrics.rs`);
* the string layout builder (`src/font/layout.rs`);
* the cached font resource manager (`src/font/manager.rs`).

Rust machine integers (`i32` lengths) are modelled as `Int`; none of the
verified operations rely on wrap-around behaviour.  Rust `HashMap`s and
`BTreeMap`s are modelled as association lists or as functions built by
repeated pointwise insertion (later insertions win, matching the collect
semantics used by the source).
-/

namespace Ugly

/- `metrics::Length` and `point::Coord` (`src/metrics/length.rs`,
`src/metrics/point.rs`) are `i32` aliases in the source; both are modelled
directly as `Int` below. -/

/-- `metrics::Size` (`src/metrics/size.rs`). -/
structure Size where
  w : Int
  h : Int
deriving DecidableEq, Repr

/-- The `Default` instance for `Size` (all fields zero, as derived in Rust). -/
instance : Inhabited Size := ⟨⟨0, 0⟩⟩

/-- `Size::stack_vertically` (`src/metrics/size.rs`): maximum horizontally, sum vertically. -/
def Size.stack_vertically (s other : Size) : Size :=
  { w := max s.w other.w, h := s.h + other.h }

/-- `metrics::Point` (`src/metrics/point.rs`). -/
structure Point where
  x : Int
  y : Int
deriving DecidableEq, Repr

instance : Inhabited Point := ⟨⟨0, 0⟩⟩

/-- `point::Delta` (`src/metrics/point.rs`): a two-dimensional offset. -/
structure Delta where
  dx : Int
  dy : Int
deriving DecidableEq, Repr

instance : Inhabited Delta := ⟨⟨0, 0⟩⟩

/-- `anchor::X` (`src/metrics/anchor.rs`). -/
inductive AnchorX where
  | left
  | right
deriving DecidableEq, Repr

/-- The default X anchor is `Left`. -/
instance : Inhabited AnchorX := ⟨.left⟩

/-- `anchor::Y` (`src/metrics/anchor.rs`). -/
inductive AnchorY where
  | top
  | bottom
deriving DecidableEq, Repr

instance : Inhabited AnchorY := ⟨.top⟩

/-- `anchor::X::offset` (`src/metrics/anchor.rs`): offset from the left edge of a width. -/
def AnchorX.offset (a : AnchorX) (width : Int) : Int :=
  match a with
  | .left => 0
  | .right => width

/-- `anchor::Y::offset` (`src/metrics/anchor.rs`). -/
def AnchorY.offset (a : AnchorY) (height : Int) : Int :=
  match a with
  | .top => 0
  | .bottom => height

/-- `anchor::Anchor` (`src/metrics/anchor.rs`). -/
structure Anchor where
  x : AnchorX
  y : AnchorY
deriving DecidableEq, Repr

/-- `Anchor::TOP_LEFT`. -/
def Anchor.TOP_LEFT : Anchor := ⟨.left, .top⟩

/-- `metrics::Rect` (`src/metrics/rect.rs`). -/
structure Rect where
  top_left : Point
  size : Size
deriving DecidableEq, Repr

instance : Inhabited Rect := ⟨⟨default, default⟩⟩

/-- `Point::offset` (`src/metrics/point.rs`). -/
def Point.offset (p : Point) (dx dy : Int) : Point :=
  { x := p.x + dx, y := p.y + dy }

/-- `Point::to_rect` (`src/metrics/point.rs`): lifts a point to a rect anchored at `anchor`. -/
def Point.to_rect (p : Point) (size : Size) (anchor : Anchor) : Rect :=
  { top_left := p.offset (-(anchor.x.offset size.w)) (-(anchor.y.offset size.h))
    size := size }

/-!
## Association lists and BTreeMap-style collection

Rust `HashMap`s with unique keys are modelled as association lists looked up
with `lookupA`.  Collecting an iterator of key/value pairs into a `BTreeMap`
(where later pairs with equal keys replace earlier ones) is modelled as
pointwise function insertion with `btreeInsert`/`btreeExtend`/`btreeCollect`.
-/

/-- `HashMap::get` on an association list with unique keys. -/
def lookupA {α β : Type} [DecidableEq α] : List (α × β) → α → Option β
  | [], _ => none
  | (k, v) :: rest, x => if x = k then some v else lookupA rest x

/-- `BTreeMap::insert`: pointwise function update (the new binding wins). -/
def btreeInsert {β : Type} (m : Char → Option β) (k : Char) (v : β) : Char → Option β :=
  fun x => if x = k then some v else m x

/-- `BTreeMap::extend`: insert each pair of a list in order (later pairs win). -/
def btreeExtend {β : Type} (m : Char → Option β) (l : List (Char × β)) : Char → Option β :=
  l.foldl (fun m p => btreeInsert m p.1 p.2) m

/-- `collect::<BTreeMap<_, _>>()` on a list of pairs. -/
def btreeCollect {β : Type} (l : List (Char × β)) : Char → Option β :=
  btreeExtend (fun _ => none) l

/-- `font::Error` (`src/font/error.rs`).  Error payloads carried by external
library types (`std::io::Error`, `ron::de::Error`) are modelled as strings. -/
inductive FontError where
  | io (msg : String)
  | metricsParse (msg : String)
  | textureLoad (msg : String)
  | unknownFont (id : String)
  | overlyLargeOverride (grid_width override_width : Int)
deriving DecidableEq, Repr

namespace Width

/-- `width::Spec` (`src/font/metrics/width.rs`): a class-based width override
specification; a `HashMap<String, Length>` modelled as an association list. -/
abbrev Spec := List (String × Int)

/-- `width::Spec::check` (`src/font/metrics/width.rs`): fails with
`OverlyLargeOverride` on the first override value larger than the grid width. -/
def check (s : Spec) (grid_width : Int) : Except FontError Unit :=
  match s with
  | [] => .ok ()
  | (_, override_width) :: rest =>
    if grid_width < override_width then
      .error (.overlyLargeOverride grid_width override_width)
    else
      check rest grid_width

/-- `width::Spec::expand_map` (`src/font/metrics/width.rs`): flat-maps every
class string to per-character bindings, collected BTreeMap-style. -/
def expand_map (s : Spec) : Char → Option Int :=
  btreeCollect (s.flatMap fun p => p.1.toList.map fun c => (c, p.2))

/-- `width::Map` (`src/font/metrics/width.rs`). -/
structure Map where
  overrides : Char → Option Int
  grid_width : Int

/-- `width::Map::get`: the override for `c`, or the grid width. -/
def Map.get (m : Map) (c : Char) : Int :=
  (m.overrides c).getD m.grid_width

/-- `width::Spec::into_map` (`src/font/metrics/width.rs`). -/
def Spec.into_map (s : Spec) (grid_width : Int) : Except FontError Map :=
  match check s grid_width with
  | .error e => .error e
  | .ok () => .ok { overrides := expand_map s, grid_width := grid_width }

end Width

namespace Kerning

/-- `kerning::ClassTable` (`src/font/metrics/kerning.rs`): class name to character set. -/
abbrev ClassTable := List (String × String)

/-- `kerning::PairTable`: left/right class pairs to absolute spacing overrides. -/
abbrev PairTable := List ((String × String) × Int)

/-- `kerning::Spec` (`src/font/metrics/kerning.rs`). -/
structure Spec where
  left : ClassTable
  right : ClassTable
  pairs : PairTable

/-- `kerning::Direction` (`src/font/metrics/kerning.rs`). -/
inductive Direction where
  | left
  | right
deriving DecidableEq, Repr

/-- `kerning::Error` (`src/font/metrics/kerning.rs`). -/
inductive Error where
  | missingClass (dir : Direction) (cl : String)
deriving DecidableEq, Repr

/-- `kerning::Spec::class_table`. -/
def Spec.class_table (s : Spec) (dir : Direction) : ClassTable :=
  match dir with
  | .left => s.left
  | .right => s.right

/-- `kerning::Spec::class` (renamed: `class` is a Lean keyword): resolves a
class name to its character set, or fails with `MissingClass`. -/
def Spec.resolveClass (s : Spec) (dir : Direction) (cl : String) : Except Error String :=
  match lookupA (s.class_table dir) cl with
  | some chars => .ok chars
  | none => .error (.missingClass dir cl)

/-- The in-progress kerning-pairs accumulator: the `BTreeMap<char, BTreeMap<char, Length>>`
built inside `kerning::Spec::into_map`. -/
abbrev Pairs := Char → Option (Char → Option Int)

/-- One iteration of the inner `for l in lefts.chars()` loop of
`kerning::Spec::into_map`: extend `l`'s map if present, else insert a fresh one. -/
def addLeft (rights : String) (length : Int) (kp : Pairs) (l : Char) : Pairs :=
  match kp l with
  | some lmap => btreeInsert kp l (btreeExtend lmap (rights.toList.map fun r => (r, length)))
  | none => btreeInsert kp l (btreeCollect (rights.toList.map fun r => (r, length)))

/-- One iteration of the outer pair loop of `kerning::Spec::into_map`. -/
def Spec.addPair (s : Spec) (kp : Pairs) (p : (String × String) × Int) :
    Except Error Pairs :=
  match s.resolveClass .left p.1.1 with
  | .error e => .error e
  | .ok lefts =>
    match s.resolveClass .right p.1.2 with
    | .error e => .error e
    | .ok rights => .ok (lefts.toList.foldl (addLeft rights p.2) kp)

/-- The pair loop of `kerning::Spec::into_map`, processing entries in order. -/
def Spec.pairsFold (s : Spec) : PairTable → Pairs → Except Error Pairs
  | [], kp => .ok kp
  | p :: rest, kp =>
    match s.addPair kp p with
    | .error e => .error e
    | .ok kp' => s.pairsFold rest kp'

/-- `kerning::Map` (`src/font/metrics/kerning.rs`). -/
structure Map where
  kerning_pairs : Pairs
  default_spacing : Int

/-- `kerning::Map::spacing`: the override for the pair, or the default spacing. -/
def Map.spacing (m : Map) (left right : Char) : Int :=
  ((m.kerning_pairs left).bind fun lm => lm right).getD m.default_spacing

/-- `kerning::Spec::into_map` (`src/font/metrics/kerning.rs`). -/
def Spec.into_map (s : Spec) (default_spacing : Int) : Except Error Map :=
  match s.pairsFold s.pairs (fun _ => none) with
  | .error e => .error e
  | .ok kp => .ok { kerning_pairs := kp, default_spacing := default_spacing }

end Kerning

/-!
## Character entries and font metrics

`src/font/metrics/chars.rs` compiles widths and kerning into a `Table` of
`Entry` values whose `Index` impl is total (unlisted characters yield the
default entry).  The layout engine (`src/font/layout.rs`) only ever reads the
table through that total indexing, so we model the table as a total function
`Char → Entry`.  The `Subtable` ASCII-array fast path is a pure lookup
optimisation with the same observable behaviour.
-/

/-- `chars::Entry` (`src/font/metrics/chars.rs`): a character's advance width,
optional right-kerning table, and default spacing. -/
structure Entry where
  width : Int
  rights : Option (Char → Option Int)
  default_kerning : Int

/-- `chars::Entry::kerning`: the kerning override against `right`, or the default. -/
def Entry.kerning (e : Entry) (right : Char) : Int :=
  (e.rights.bind fun r => r right).getD e.default_kerning

/-- `font::Metrics` (`src/font/metrics.rs`): grid cell size, padding, and the
per-character table (modelled as the total indexing of `chars::Table`). -/
structure Metrics where
  char : Size
  pad : Size
  chars : Char → Entry

/-- `Metrics::padded_w`. -/
def Metrics.padded_w (m : Metrics) : Int := m.char.w + m.pad.w

/-- `Metrics::padded_h`. -/
def Metrics.padded_h (m : Metrics) : Int := m.char.h + m.pad.h

/-- `NUM_COLS` (`src/font/metrics.rs`): columns in a font texture. -/
def NUM_COLS : Nat := 32

/-- `char_to_ascii` (`src/font/metrics.rs`): `u8::try_from(char)`, i.e. the
code point when it fits in eight bits. -/
def char_to_ascii (c : Char) : Option Nat :=
  if c.toNat < 256 then some c.toNat else none

/-- `glyph_col` (`src/font/metrics.rs`). -/
def glyph_col (char : Nat) : Nat := char % NUM_COLS

/-- `glyph_row` (`src/font/metrics.rs`). -/
def glyph_row (char : Nat) : Nat := char / NUM_COLS

/-- `glyph_axis` (`src/font/metrics.rs`): the 8-bit index is promoted to
`Length` *before* the multiplication (the source comment notes that
multiplying first would overflow on big fonts). -/
def glyph_axis (index : Nat) (size : Int) : Int :=
  (index : Int) * size

/-- `Metrics::glyph_top_left` (`src/font/metrics.rs`): grid position of the
glyph for `char` in the texture; the default (zero) point for non-8-bit chars. -/
def Metrics.glyph_top_left (m : Metrics) (char : Char) : Point :=
  match char_to_ascii char with
  | none => default
  | some g =>
    { x := glyph_axis (glyph_col g) m.padded_w
      y := glyph_axis (glyph_row g) m.padded_h }

/-!
## The layout builder (`src/font/layout.rs`)

`GlyphSet` wraps a `HashMap<Rect, Vec<point::Delta>>`; we model it as an
association list with unique `Rect` keys, `push`/`extend` appending to the
entry for the key (inserting a fresh entry at the end when absent).
-/

/-- `layout::GlyphSet` (`src/font/layout.rs`). -/
abbrev GlyphSet := List (Rect × List Delta)

/-- `GlyphSet::push`: appends `delta` to the destination list for `src`. -/
def GlyphSet.push : GlyphSet → Rect → Delta → GlyphSet
  | [], src, delta => [(src, [delta])]
  | (r, ds) :: rest, src, delta =>
    if r = src then (r, ds ++ [delta]) :: rest else (r, ds) :: GlyphSet.push rest src delta

/-- `GlyphSet::extend`: appends many deltas to the destination list for `src`. -/
def GlyphSet.extend : GlyphSet → Rect → List Delta → GlyphSet
  | [], src, deltas => [(src, deltas)]
  | (r, ds) :: rest, src, deltas =>
    if r = src then (r, ds ++ deltas) :: rest else (r, ds) :: GlyphSet.extend rest src deltas

/-- `GlyphSet::merge`: extends `g` with every entry of `other`. -/
def GlyphSet.merge (g : GlyphSet) (other : GlyphSet) : GlyphSet :=
  other.foldl (fun acc p => GlyphSet.extend acc p.1 p.2) g

/-- `GlyphSet::realign` (`src/font/layout.rs`): shifts every delta right by
`alignment.offset(total_width - line_width)`, skipping the map when that
shift is zero. -/
def GlyphSet.realign (g : GlyphSet) (alignment : AnchorX) (line_width total_width : Int) :
    GlyphSet :=
  let dw := alignment.offset (total_width - line_width)
  if dw = 0 then g
  else g.map fun p => (p.1, p.2.map fun d => { d with dx := d.dx + dw })

/-- `layout::Line` (`src/font/layout.rs`): an in-progress line. -/
structure Line where
  size : Size
  glyphs : GlyphSet
deriving Inhabited

/-- `layout::String` (`src/font/layout.rs`): a laid-out string. -/
structure LaidString where
  string : List Char
  bounds : Rect
  glyphs : GlyphSet

/-- The default `layout::String` is empty with zero bounds and no glyphs. -/
instance : Inhabited LaidString := ⟨⟨[], default, []⟩⟩

/-- `layout::Builder` (`src/font/layout.rs`): the mutable layout state.  The
borrowed `font_metrics` (and the `padded_h` cache derived from it) is passed
to each operation instead of being stored. -/
structure Builder where
  bounds : Rect
  alignment : AnchorX
  cursor : Delta
  last_char_metrics : Option Entry
  finished_lines : List Line
  current_line : Line

/-- `Builder::new`. -/
def Builder.new (m : Metrics) : Builder :=
  { bounds := default
    alignment := default
    cursor := default
    last_char_metrics := none
    current_line := { size := { w := 0, h := m.char.h }, glyphs := [] }
    finished_lines := [] }

/-- `Builder::with_alignment`. -/
def Builder.with_alignment (b : Builder) (alignment : AnchorX) : Builder :=
  { b with alignment := alignment }

/-- `Builder::carriage_return`: resets the horizontal cursor and forgets the
last character (no kerning across a carriage return). -/
def Builder.carriage_return (b : Builder) : Builder :=
  { b with cursor := { b.cursor with dx := 0 }, last_char_metrics := none }

/-- `Builder::line_feed`: commits the current line unless its width is zero. -/
def Builder.line_feed (m : Metrics) (b : Builder) : Builder :=
  if b.current_line.size.w = 0 then b
  else
    { b with
      cursor := { dx := 0, dy := b.cursor.dy + m.padded_h }
      bounds := { b.bounds with size := b.bounds.size.stack_vertically b.current_line.size }
      last_char_metrics := none
      finished_lines := b.finished_lines ++ [b.current_line]
      current_line := { size := { w := 0, h := m.padded_h }, glyphs := [] } }

/-- `Builder::move_right_with_kerning`. -/
def Builder.move_right_with_kerning (b : Builder) (char : Char) (metrics : Entry) : Builder :=
  let kerning := metrics.kerning char
  { b with
    cursor := { b.cursor with dx := b.cursor.dx + metrics.width + kerning }
    current_line := { b.current_line with
      size := { b.current_line.size with w := b.current_line.size.w + kerning } } }

/-- `Builder::char_src_rect`: the glyph's source rectangle in the texture. -/
def char_src_rect (m : Metrics) (char : Char) (metrics : Entry) : Rect :=
  let src_top_left := m.glyph_top_left char
  let size : Size := { w := metrics.width, h := m.char.h }
  src_top_left.to_rect size Anchor.TOP_LEFT

/-- `Builder::layout_char`. -/
def Builder.layout_char (m : Metrics) (b : Builder) (char : Char) : Builder :=
  let char_metrics := m.chars char
  let b := { b with current_line := { b.current_line with
    size := { b.current_line.size with w := b.current_line.size.w + char_metrics.width } } }
  let prev := b.last_char_metrics
  let b := { b with last_char_metrics := some char_metrics }
  let b :=
    match prev with
    | some metrics => b.move_right_with_kerning char metrics
    | none => b
  let src := char_src_rect m char char_metrics
  { b with current_line := { b.current_line with
    glyphs := b.current_line.glyphs.push src b.cursor } }

/-- One character step of `Builder::do_layout`'s loop (the source's `match`
on `'\r'`/`'\n'`/other, written as the equivalent decision chain). -/
def Builder.step (m : Metrics) (b : Builder) (char : Char) : Builder :=
  if char = '\r' then b.carriage_return
  else if char = '\n' then b.line_feed m
  else b.layout_char m char

/-- `Builder::do_layout`: folds the steps over the string, with an implicit
line feed at the end. -/
def Builder.do_layout (m : Metrics) (b : Builder) (string : List Char) : Builder :=
  (string.foldl (Builder.step m) b).line_feed m

/-- `Builder::build` (`src/font/layout.rs`). -/
def Builder.build (m : Metrics) (b : Builder) (string : List Char) : LaidString :=
  if string = [] then default
  else
    let done := b.do_layout m string
    let glyphs := done.finished_lines.foldl
      (fun acc line =>
        GlyphSet.merge acc
          (GlyphSet.realign line.glyphs done.alignment line.size.w done.bounds.size.w))
      ([] : GlyphSet)
    { string := string, bounds := done.bounds, glyphs := glyphs }

/-- `Builder::dry_run` (`src/font/layout.rs`): runs the same layout loop,
returning only the bounds. -/
def Builder.dry_run (m : Metrics) (b : Builder) (string : List Char) : Rect :=
  (b.do_layout m string).bounds

/-!
## The cached font resource manager (`src/font/manager.rs`)

`Cached` is generic over font-id, colour-id, colour-definition and
backend-data types; fetching a spec consults `slot_mapping` and only falls
back to the injected `Loader` when the spec is uncached.  The embedding's
`fetch` additionally returns the number of `Loader::load` invocations the
call performed (0 or 1), so that claims about loader invocations are
statable; the source performs no other observable effects.
-/

/-- `font::Spec` (`src/font/spec.rs`): a font id / colour id pair. -/
structure Spec (F C : Type) where
  id : F
  colour : C
deriving DecidableEq

/-- `manager::Index` (`src/font/manager.rs`): an index into the cache. -/
structure Index where
  val : Nat
deriving DecidableEq, Repr

/-- `font::Font` (`src/font.rs`): a directory holding `font.png` and metrics. -/
structure Font where
  dir : String
deriving DecidableEq, Repr

/-- `Font::texture_path` (`src/font.rs`): the font directory joined with `font.png`. -/
def Font.texture_path (f : Font) : String :=
  f.dir ++ "/font.png"

/-- `resource::DefaultingHashMap` (`src/resource.rs`). -/
structure DefaultingHashMap (K V : Type) where
  map : List (K × V)
  dflt : V

/-- `DefaultingHashMap::get` (`src/resource.rs`): total lookup, substituting
the default value when the key is absent. -/
def DefaultingHashMap.get {K V : Type} [DecidableEq K]
    (m : DefaultingHashMap K V) (k : K) : V :=
  (lookupA m.map k).getD m.dflt

/-- `manager::Loader` (`src/font/manager.rs`): the injected load/colourise
capability, modelled as pure functions on paths (strings). -/
structure Loader (Colour Data : Type) where
  load : String → Except FontError Data
  colourise : Data → Colour → Data

/-- `manager::Cached` (`src/font/manager.rs`).  The `metrics_set` field is
not involved in fetching and is omitted. -/
structure Cached (F C Colour Data : Type) where
  slot_mapping : List (Spec F C × Index)
  cache : List Data
  loader : Loader Colour Data
  font_set : DefaultingHashMap F Font
  colour_set : DefaultingHashMap C Colour

/-- `Cached::fetch_uncached` (`src/font/manager.rs`): loads and colourises the
texture for `spec`, appends it to the cache and records the new index.  The
third component counts `Loader::load` invocations. -/
def Cached.fetch_uncached {F C Colour Data : Type} [DecidableEq F] [DecidableEq C]
    (mgr : Cached F C Colour Data) (spec : Spec F C) :
    Except FontError Index × Cached F C Colour Data × Nat :=
  let path := (mgr.font_set.get spec.id).texture_path
  match mgr.loader.load path with
  | .error e => (.error e, mgr, 1)
  | .ok tex =>
    let col_tex := mgr.loader.colourise tex (mgr.colour_set.get spec.colour)
    let cache := mgr.cache ++ [col_tex]
    let index : Index := ⟨cache.length - 1⟩
    (.ok index,
     { mgr with cache := cache, slot_mapping := mgr.slot_mapping ++ [(spec, index)] },
     1)

/-- `Cached::fetch` (`src/font/manager.rs`): returns the cached index if the
spec was already loaded, else falls back to `fetch_uncached`. -/
def Cached.fetch {F C Colour Data : Type} [DecidableEq F] [DecidableEq C]
    (mgr : Cached F C Colour Data) (spec : Spec F C) :
    Except FontError Index × Cached F C Colour Data × Nat :=
  match lookupA mgr.slot_mapping spec with
  | some i => (.ok i, mgr, 0)
  | none => mgr.fetch_uncached spec

/-- Runs a sequence of `fetch` calls on one manager instance, returning the
final manager and the total number of `Loader::load` invocations. -/
def Cached.runFetches {F C Colour Data : Type} [DecidableEq F] [DecidableEq C]
    (mgr : Cached F C Colour Data) :
    List (Spec F C) → Cached F C Colour Data × Nat
  | [] => (mgr, 0)
  | s :: rest =>
    let r := mgr.fetch s
    let rest' := Cached.runFetches r.2.1 rest
    (rest'.1, r.2.2 + rest'.2)

/-- The `big_font` fixture of `src/font/metrics.rs`'s tests: 9×9 cells, 1×1
padding, the `"iI" -> 1` width override, no kerning overrides (so each
entry's default spacing is `pad.w = 1`). -/
def big_font : Metrics :=
  { char := ⟨9, 9⟩
    pad := ⟨1, 1⟩
    chars := fun c => if c = 'i' ∨ c = 'I' then ⟨1, none, 1⟩ else ⟨9, none, 1⟩ }

/-!
## General lemmas about the layout builder
-/

theorem line_feed_current_w (m : Metrics) (b : Builder) :
    (b.line_feed m).current_line.size.w = 0 := by
  unfold Builder.line_feed
  split
  · assumption
  · rfl

theorem line_feed_noop (m : Metrics) (b : Builder) (h : b.current_line.size.w = 0) :
    b.line_feed m = b := by
  unfold Builder.line_feed
  exact if_pos h

theorem line_feed_idem (m : Metrics) (b : Builder) :
    (b.line_feed m).line_feed m = b.line_feed m :=
  line_feed_noop m _ (line_feed_current_w m b)

theorem step_newline (m : Metrics) (b : Builder) : b.step m '\n' = b.line_feed m := by
  simp [Builder.step]

theorem step_carriage (m : Metrics) (b : Builder) : b.step m '\r' = b.carriage_return := by
  simp [Builder.step]

theorem step_char (m : Metrics) (b : Builder) (c : Char) (h1 : c ≠ '\r') (h2 : c ≠ '\n') :
    b.step m c = b.layout_char m c := by
  simp [Builder.step, h1, h2]

/-- C1: for every metrics set, alignment and string, `Builder::dry_run` returns
a rectangle whose size equals the size of the bounds of the `layout::String`
returned by `Builder::build` on the same input — both run the same layout
state machine, and `dry_run` merely discards glyph recording. -/
theorem c1_dry_run_build_bounds (m : Metrics) (a : AnchorX) (s : List Char) :
    (Builder.dry_run m ((Builder.new m).with_alignment a) s).size
      = (Builder.build m ((Builder.new m).with_alignment a) s).bounds.size := by
  by_cases hs : s = []
  · subst hs
    have h0 : ((Builder.new m).with_alignment a).current_line.size.w = 0 := rfl
    simp [Builder.dry_run, Builder.build, Builder.do_layout, List.foldl,
      line_feed_noop _ _ h0]
    rfl
  · simp [Builder.dry_run, Builder.build, hs]

/-- C10: a line feed arriving while the current line's accumulated width is
zero is a no-op (commits nothing, leaves the whole builder state unchanged);
hence `"foo\n\nbar"` lays out with the same bounds as `"foo\nbar"`, and a
string of only `'\n'`/`'\r'` characters builds to the default zero-size,
empty-glyph result. -/
theorem c10_empty_lines :
    (∀ (m : Metrics) (b : Builder), b.current_line.size.w = 0 → b.line_feed m = b) ∧
    (∀ (m : Metrics) (a : AnchorX),
      (Builder.build m ((Builder.new m).with_alignment a) "foo\n\nbar".toList).bounds
        = (Builder.build m ((Builder.new m).with_alignment a) "foo\nbar".toList).bounds) ∧
    (∀ (m : Metrics) (a : AnchorX) (s : List Char), (∀ c ∈ s, c = '\n' ∨ c = '\r') →
      (Builder.build m ((Builder.new m).with_alignment a) s).bounds = default ∧
      (Builder.build m ((Builder.new m).with_alignment a) s).glyphs = []) := by
  refine ⟨line_feed_noop, ?_, ?_⟩
  · intro m a
    have h1 : "foo\n\nbar".toList = ['f', 'o', 'o', '\n', '\n', 'b', 'a', 'r'] := rfl
    have h2 : "foo\nbar".toList = ['f', 'o', 'o', '\n', 'b', 'a', 'r'] := rfl
    have key : ∀ b : Builder,
        Builder.do_layout m b ['f', 'o', 'o', '\n', '\n', 'b', 'a', 'r']
          = Builder.do_layout m b ['f', 'o', 'o', '\n', 'b', 'a', 'r'] := by
      intro b
      unfold Builder.do_layout
      simp only [List.foldl_cons, List.foldl_nil, step_newline, line_feed_idem]
    have hne1 : (['f', 'o', 'o', '\n', '\n', 'b', 'a', 'r'] : List Char) ≠ [] := by decide
    have hne2 : (['f', 'o', 'o', '\n', 'b', 'a', 'r'] : List Char) ≠ [] := by decide
    simp only [Builder.build, h1, h2, key, if_neg hne1, if_neg hne2]
  · intro m a s hc
    by_cases hs : s = []
    · subst hs
      exact ⟨rfl, rfl⟩
    · have inv : ∀ (t : List Char) (b : Builder), (∀ c ∈ t, c = '\n' ∨ c = '\r') →
          b.current_line.size.w = 0 → b.finished_lines = [] → b.bounds = default →
          (t.foldl (Builder.step m) b).current_line.size.w = 0 ∧
          (t.foldl (Builder.step m) b).finished_lines = [] ∧
          (t.foldl (Builder.step m) b).bounds = default := by
        intro t
        induction t with
        | nil => intro b _ hw hf hb; exact ⟨hw, hf, hb⟩
        | cons c rest ih =>
          intro b hct hw hf hb
          rcases hct c (List.mem_cons_self c rest) with h | h <;> subst h
          · rw [List.foldl_cons, step_newline, line_feed_noop m b hw]
            exact ih b (fun c hc' => hct c (List.mem_cons_of_mem _ hc')) hw hf hb
          · rw [List.foldl_cons, step_carriage]
            exact ih _ (fun c hc' => hct c (List.mem_cons_of_mem _ hc')) hw hf hb
      have hinv := inv s ((Builder.new m).with_alignment a) hc rfl rfl rfl
      have hfold := line_feed_noop m _ hinv.1
      constructor
      · simp only [Builder.build, hs, if_neg hs, Builder.do_layout, hfold]
        exact hinv.2.2
      · simp only [Builder.build, hs, if_neg hs, Builder.do_layout, hfold, hinv.2.1]
        rfl

/-- C3: for every metrics set and every character with an 8-bit code `c`,
`glyph_top_left` is `((c % 32) * padded_w, (c / 32) * padded_h)`, the 8-bit
column/row index being promoted to `Length` before the multiplication; with
9×9 cells and 1×1 padding (padded 10), code 31 has x = 310 and code 255 has
y = 70. -/
theorem c3_glyph_grid :
    (∀ (m : Metrics) (c : Char), c.toNat < 256 →
      m.glyph_top_left c =
        { x := ((c.toNat % 32 : Nat) : Int) * m.padded_w
          y := ((c.toNat / 32 : Nat) : Int) * m.padded_h }) ∧
    (big_font.glyph_top_left (Char.ofNat 31)).x = 310 ∧
    (big_font.glyph_top_left (Char.ofNat 255)).y = 70 := by
  refine ⟨?_, by decide, by decide⟩
  intro m c h
  simp [Metrics.glyph_top_left, char_to_ascii, h, glyph_axis, glyph_col, glyph_row, NUM_COLS]

/-- Witness for C3 at the concrete character `'A'` (code 65). -/
theorem c3_glyph_grid_witness :
    Char.toNat 'A' < 256 ∧
    big_font.glyph_top_left 'A' =
      { x := ((Char.toNat 'A' % 32 : Nat) : Int) * big_font.padded_w
        y := ((Char.toNat 'A' / 32 : Nat) : Int) * big_font.padded_h } :=
  ⟨by decide, c3_glyph_grid.1 big_font 'A' (by decide)⟩

/-!
### A bounds-only abstraction of the builder

The bounding box computed by the layout loop depends only on the builder's
`bounds`, `current_line.size` and `last_char_metrics` fields (never on the
recorded glyphs or the cursor), so those three fields evolve autonomously.
`absB` projects them out and `stepAbs`/`lfAbs` mirror `Builder::step` and
`Builder::line_feed` on the projection; the commutation lemmas below let
bounds be computed without dragging glyph sets along.
-/

/-- The bounds-relevant projection of a builder state. -/
def absB (b : Builder) : Rect × Size × Option Entry :=
  (b.bounds, b.current_line.size, b.last_char_metrics)

/-- `Builder::line_feed` on the bounds-relevant projection. -/
def lfAbs (m : Metrics) (t : Rect × Size × Option Entry) : Rect × Size × Option Entry :=
  if t.2.1.w = 0 then t
  else ({ t.1 with size := t.1.size.stack_vertically t.2.1 }, ⟨0, m.padded_h⟩, none)

/-- `Builder::step` on the bounds-relevant projection. -/
def stepAbs (m : Metrics) (t : Rect × Size × Option Entry) (c : Char) :
    Rect × Size × Option Entry :=
  if c = '\r' then (t.1, t.2.1, none)
  else if c = '\n' then lfAbs m t
  else
    let e := m.chars c
    let w₁ := t.2.1.w + e.width
    match t.2.2 with
    | some prev => (t.1, ⟨w₁ + prev.kerning c, t.2.1.h⟩, some e)
    | none => (t.1, ⟨w₁, t.2.1.h⟩, some e)

theorem absB_line_feed (m : Metrics) (b : Builder) :
    absB (b.line_feed m) = lfAbs m (absB b) := by
  unfold Builder.line_feed lfAbs absB
  split <;> rfl

theorem absB_step (m : Metrics) (b : Builder) (c : Char) :
    absB (b.step m c) = stepAbs m (absB b) c := by
  unfold Builder.step stepAbs
  split
  · rfl
  · split
    · exact absB_line_feed m b
    · unfold Builder.layout_char Builder.move_right_with_kerning absB
      cases b.last_char_metrics <;> rfl

theorem absB_foldl (m : Metrics) (l : List Char) (b : Builder) :
    absB (l.foldl (Builder.step m) b) = l.foldl (stepAbs m) (absB b) := by
  induction l generalizing b with
  | nil => rfl
  | cons c t ih => rw [List.foldl_cons, List.foldl_cons, ih, absB_step]

theorem do_layout_bounds (m : Metrics) (l : List Char) (b : Builder) :
    (b.do_layout m l).bounds = (lfAbs m (l.foldl (stepAbs m) (absB b))).1 := by
  have h : absB (b.do_layout m l) = lfAbs m (l.foldl (stepAbs m) (absB b)) := by
    unfold Builder.do_layout
    rw [absB_line_feed, absB_foldl]
  exact congrArg Prod.fst h

/-- A uniform metrics set: every character has width `W`, no kerning table,
and default spacing `ps.w`. -/
def uniform_metrics (cs ps : Size) (W : Int) : Metrics :=
  { char := cs, pad := ps, chars := fun _ => ⟨W, none, ps.w⟩ }

/-- A degenerate uniform metrics set (width 0, no padding, 9-pixel-tall cells). -/
def zero_width_font : Metrics := uniform_metrics ⟨9, 9⟩ ⟨0, 0⟩ 0

/-- C5 (amended): for `"foo\nbar"` under uniform per-character width `W` and
padding `pad`, *provided the common line width `3W + 2·pad.w` is positive*,
the bounds are `max` of the two (equal) line widths wide and
`char.h + (char.h + pad.h)` tall — the first line unpadded, the second
padded. -/
theorem c5_two_line_stacking (cs ps : Size) (W : Int) (a : AnchorX)
    (h : 0 < 3 * W + 2 * ps.w) :
    (Builder.build (uniform_metrics cs ps W)
        ((Builder.new (uniform_metrics cs ps W)).with_alignment a)
        "foo\nbar".toList).bounds.size
      = { w := max (3 * W + 2 * ps.w) (3 * W + 2 * ps.w)
          h := cs.h + (cs.h + ps.h) } := by
  have hl : "foo\nbar".toList = ['f', 'o', 'o', '\n', 'b', 'a', 'r'] := rfl
  simp only [Builder.build, hl,
    if_neg (by decide : (['f', 'o', 'o', '\n', 'b', 'a', 'r'] : List Char) ≠ [])]
  rw [do_layout_bounds]
  have habs : absB ((Builder.new (uniform_metrics cs ps W)).with_alignment a)
      = ((default : Rect), (⟨0, cs.h⟩ : Size), (none : Option Entry)) := rfl
  rw [habs]
  -- small evaluation lemmas for the abstract step under uniform metrics
  have hsN : ∀ (t1 : Rect) (w0 h0 : Int) (c : Char), c ≠ '\r' → c ≠ '\n' →
      stepAbs (uniform_metrics cs ps W) (t1, ⟨w0, h0⟩, none) c
        = (t1, ⟨w0 + W, h0⟩, some ⟨W, none, ps.w⟩) := by
    intro t1 w0 h0 c h1 h2
    simp [stepAbs, uniform_metrics, h1, h2]
  have hsS : ∀ (t1 : Rect) (w0 h0 : Int) (c : Char), c ≠ '\r' → c ≠ '\n' →
      stepAbs (uniform_metrics cs ps W) (t1, ⟨w0, h0⟩, some ⟨W, none, ps.w⟩) c
        = (t1, ⟨w0 + W + ps.w, h0⟩, some ⟨W, none, ps.w⟩) := by
    intro t1 w0 h0 c h1 h2
    simp [stepAbs, uniform_metrics, h1, h2, Entry.kerning]
  have hsLF : ∀ t, stepAbs (uniform_metrics cs ps W) t '\n' = lfAbs (uniform_metrics cs ps W) t := by
    intro t
    simp [stepAbs]
  have hlf : ∀ (t1 : Rect) (w0 h0 : Int) (o : Option Entry), w0 ≠ 0 →
      lfAbs (uniform_metrics cs ps W) (t1, ⟨w0, h0⟩, o)
        = ({ t1 with size := t1.size.stack_vertically ⟨w0, h0⟩ }, ⟨0, cs.h + ps.h⟩, none) := by
    intro t1 w0 h0 o hw
    simp [lfAbs, hw, Metrics.padded_h, uniform_metrics]
  rw [List.foldl_cons, hsN _ _ _ 'f' (by decide) (by decide)]
  rw [List.foldl_cons, hsS _ _ _ 'o' (by decide) (by decide)]
  rw [List.foldl_cons, hsS _ _ _ 'o' (by decide) (by decide)]
  rw [List.foldl_cons, hsLF, hlf _ (0 + W + W + ps.w + W + ps.w) _ _ (by omega)]
  rw [List.foldl_cons, hsN _ _ _ 'b' (by decide) (by decide)]
  rw [List.foldl_cons, hsS _ _ _ 'a' (by decide) (by decide)]
  rw [List.foldl_cons, hsS _ _ _ 'r' (by decide) (by decide)]
  rw [List.foldl_nil, hlf _ (0 + W + W + ps.w + W + ps.w) _ _ (by omega)]
  have hdef : (default : Rect).size = ⟨0, 0⟩ := rfl
  simp only [hdef, Size.stack_vertically, Size.mk.injEq]
  constructor
  · omega
  · omega

/-- Counterexample to C5 as stated: with uniform per-character width `W = 0`
and padding `{w:0,h:0}` but 9-pixel-tall cells, both lines of `"foo\nbar"`
accumulate width 0, so neither is ever committed; the bounds are 0 tall, not
the `char.h + (char.h + pad.h) = 18` the claim requires. -/
theorem c5_counterexample :
    (Builder.build zero_width_font ((Builder.new zero_width_font).with_alignment .left)
        "foo\nbar".toList).bounds.size.h = 0 ∧
    zero_width_font.char.h + (zero_width_font.char.h + zero_width_font.pad.h) = 18 ∧
    (0 : Int) ≠ 18 := by
  refine ⟨by decide, by decide, by decide⟩

/-- Witness for C5 (amended) at `char = {w:9,h:9}`, `pad = {w:1,h:1}`, `W = 9`:
the bounds of `"foo\nbar"` are 29×19. -/
theorem c5_two_line_stacking_witness :
    (0 : Int) < 3 * 9 + 2 * 1 ∧
    (Builder.build (uniform_metrics ⟨9, 9⟩ ⟨1, 1⟩ 9)
        ((Builder.new (uniform_metrics ⟨9, 9⟩ ⟨1, 1⟩ 9)).with_alignment .left)
        "foo\nbar".toList).bounds.size
      = { w := max (3 * 9 + 2 * 1) (3 * 9 + 2 * 1), h := 9 + (9 + 1) } :=
  ⟨by norm_num, c5_two_line_stacking ⟨9, 9⟩ ⟨1, 1⟩ 9 .left (by norm_num)⟩

/-!
## Lemmas about the cached font manager
-/

theorem lookupA_append_of_some {α β : Type} [DecidableEq α] {l : List (α × β)}
    (l' : List (α × β)) {x : α} {v : β} (h : lookupA l x = some v) :
    lookupA (l ++ l') x = some v := by
  induction l with
  | nil => exact absurd h (by simp [lookupA])
  | cons p rest ih =>
    rw [List.cons_append]
    unfold lookupA at h ⊢
    split at h
    · rwa [if_pos (by assumption)]
    · rw [if_neg (by assumption)]
      exact ih h

theorem lookupA_append_self {α β : Type} [DecidableEq α] {l : List (α × β)} {x : α}
    (h : lookupA l x = none) (v : β) : lookupA (l ++ [(x, v)]) x = some v := by
  induction l with
  | nil => simp [lookupA]
  | cons p rest ih =>
    unfold lookupA at h
    rw [List.cons_append]
    unfold lookupA
    split at h
    · exact absurd h (by simp)
    · rw [if_neg (by assumption)]
      exact ih h

theorem fetch_cached {F C Colour Data : Type} [DecidableEq F] [DecidableEq C]
    {mgr : Cached F C Colour Data} {s : Spec F C} {i : Index}
    (h : lookupA mgr.slot_mapping s = some i) :
    mgr.fetch s = (.ok i, mgr, 0) := by
  unfold Cached.fetch
  rw [h]

theorem fetch_ok_slot {F C Colour Data : Type} [DecidableEq F] [DecidableEq C]
    {mgr m' : Cached F C Colour Data} {s : Spec F C} {i : Index} {n : Nat}
    (h : mgr.fetch s = (.ok i, m', n)) :
    lookupA m'.slot_mapping s = some i := by
  unfold Cached.fetch at h
  cases hl : lookupA mgr.slot_mapping s with
  | some j =>
    rw [hl] at h
    simp only [Prod.mk.injEq, Except.ok.injEq] at h
    obtain ⟨hij, hm, -⟩ := h
    subst hm
    rw [hl, hij]
  | none =>
    rw [hl] at h
    unfold Cached.fetch_uncached at h
    dsimp only at h
    cases hload : mgr.loader.load (mgr.font_set.get s.id).texture_path with
    | error e =>
      rw [hload] at h
      simp at h
    | ok tex =>
      rw [hload] at h
      dsimp only at h
      simp only [Prod.mk.injEq, Except.ok.injEq] at h
      obtain ⟨hi, hm, -⟩ := h
      subst hm
      dsimp only
      rw [← hi]
      exact lookupA_append_self hl _

theorem fetch_slot_mono {F C Colour Data : Type} [DecidableEq F] [DecidableEq C]
    {mgr : Cached F C Colour Data} {s : Spec F C} {i : Index}
    (h : lookupA mgr.slot_mapping s = some i) (t : Spec F C) :
    lookupA ((mgr.fetch t).2.1).slot_mapping s = some i := by
  unfold Cached.fetch
  cases hl : lookupA mgr.slot_mapping t with
  | some j => exact h
  | none =>
    unfold Cached.fetch_uncached
    dsimp only
    cases hload : mgr.loader.load (mgr.font_set.get t.id).texture_path with
    | error e => exact h
    | ok tex => exact lookupA_append_of_some _ h

theorem runFetches_slot_mono {F C Colour Data : Type} [DecidableEq F] [DecidableEq C]
    {mgr : Cached F C Colour Data} {s : Spec F C} {i : Index}
    (h : lookupA mgr.slot_mapping s = some i) (l : List (Spec F C)) :
    lookupA ((Cached.runFetches mgr l).1).slot_mapping s = some i := by
  induction l generalizing mgr with
  | nil => exact h
  | cons t rest ih => exact ih (fetch_slot_mono h t)

/-- C2 (amended): after the first *successful* `fetch` of a spec, any later
`fetch` of the same spec — after any interleaved sequence of other fetches on
the same manager — performs no load and returns the same `Index`.  (The
unamended "at most one load ever" fails when a load errors: nothing is
cached, so the loader is re-invoked; see the counterexample.) -/
theorem c2_cache_idempotence {F C Colour Data : Type} [DecidableEq F] [DecidableEq C]
    (mgr m₁ : Cached F C Colour Data) (s : Spec F C) (i : Index) (n : Nat)
    (h : mgr.fetch s = (.ok i, m₁, n)) (l : List (Spec F C)) :
    (Cached.runFetches m₁ l).1.fetch s = (.ok i, (Cached.runFetches m₁ l).1, 0) :=
  fetch_cached (runFetches_slot_mono (fetch_ok_slot h) l)

/-- A loader whose `load` always fails. -/
def failing_loader : Loader Unit Unit :=
  { load := fun _ => .error (.textureLoad "decode failure"), colourise := fun d _ => d }

/-- A loader whose `load` always succeeds. -/
def ok_loader : Loader Unit Unit :=
  { load := fun _ => .ok (), colourise := fun d _ => d }

/-- A fresh manager over unit id/colour/data types with a failing loader and
an empty font-path map (whose default font directory is `fonts/default`). -/
def failing_mgr : Cached Unit Unit Unit Unit :=
  { slot_mapping := [], cache := [], loader := failing_loader
    font_set := ⟨[], ⟨"fonts/default"⟩⟩, colour_set := ⟨[], ()⟩ }

/-- A fresh manager like `failing_mgr` but with the succeeding loader. -/
def demo_mgr : Cached Unit Unit Unit Unit :=
  { slot_mapping := [], cache := [], loader := ok_loader
    font_set := ⟨[], ⟨"fonts/default"⟩⟩, colour_set := ⟨[], ()⟩ }

/-- `demo_mgr` after one successful fetch of the unit spec. -/
def demo_mgr1 : Cached Unit Unit Unit Unit :=
  { slot_mapping := [(⟨(), ()⟩, ⟨0⟩)], cache := [()], loader := ok_loader
    font_set := ⟨[], ⟨"fonts/default"⟩⟩, colour_set := ⟨[], ()⟩ }

/-- Counterexample to C2 as stated: with a loader that fails, two `fetch`
calls for the same spec on one manager invoke `Loader::load` twice — the
failed first call caches nothing, so the loader is not invoked "at most
once" for that spec. -/
theorem c2_counterexample :
    (Cached.runFetches failing_mgr [⟨(), ()⟩, ⟨(), ()⟩]).2 = 2 ∧
    ¬((Cached.runFetches failing_mgr [⟨(), ()⟩, ⟨(), ()⟩]).2 ≤ 1) := by
  exact ⟨rfl, by decide⟩

/-- Witness for C2 (amended): concrete manager, one successful fetch, one
interleaved fetch, then the re-fetch hits the cache with zero loads. -/
theorem c2_cache_idempotence_witness :
    demo_mgr.fetch ⟨(), ()⟩ = (.ok ⟨0⟩, demo_mgr1, 1) ∧
    (Cached.runFetches demo_mgr1 [⟨(), ()⟩]).1.fetch ⟨(), ()⟩
      = (.ok ⟨0⟩, (Cached.runFetches demo_mgr1 [⟨(), ()⟩]).1, 0) :=
  ⟨rfl, c2_cache_idempotence demo_mgr demo_mgr1 ⟨(), ()⟩ ⟨0⟩ 1 rfl [⟨(), ()⟩]⟩

/-- C8 (amended): when a spec's font id is absent from the font-path map (and
the spec is uncached), `fetch` does *not* fail with `UnknownFont`: the
`DefaultingHashMap` substitutes the default font, the loader *is* invoked
(exactly once) on the default font's texture path, and the loader's outcome
on that path determines the result. -/
theorem c8_missing_font_id {F C Colour Data : Type} [DecidableEq F] [DecidableEq C]
    (mgr : Cached F C Colour Data) (s : Spec F C)
    (hslot : lookupA mgr.slot_mapping s = none)
    (hfont : lookupA mgr.font_set.map s.id = none) :
    (mgr.fetch s).1
        = Except.map (fun _ => (⟨mgr.cache.length⟩ : Index))
            (mgr.loader.load mgr.font_set.dflt.texture_path) ∧
    (mgr.fetch s).2.2 = 1 := by
  unfold Cached.fetch
  rw [hslot]
  unfold Cached.fetch_uncached DefaultingHashMap.get
  rw [hfont]
  cases hload : mgr.loader.load mgr.font_set.dflt.texture_path with
  | error e => simp [hload, Except.map]
  | ok d => simp [hload, Except.map]

/-- Witness for C8 (amended) at the concrete manager with an empty font map. -/
theorem c8_missing_font_id_witness :
    lookupA demo_mgr.slot_mapping ⟨(), ()⟩ = none ∧
    lookupA demo_mgr.font_set.map () = none ∧
    ((demo_mgr.fetch ⟨(), ()⟩).1
        = Except.map (fun _ => (⟨demo_mgr.cache.length⟩ : Index))
            (demo_mgr.loader.load demo_mgr.font_set.dflt.texture_path) ∧
      (demo_mgr.fetch ⟨(), ()⟩).2.2 = 1) :=
  ⟨rfl, rfl, c8_missing_font_id demo_mgr ⟨(), ()⟩ rfl rfl⟩

/-- Counterexample to C8 as stated: the unit spec's font id is absent from
`demo_mgr`'s (empty) font-path map, yet fetching *succeeds* (the default
font's path is loaded) with the loader invoked once — it neither fails with
`UnknownFont` nor skips the loader. -/
theorem c8_counterexample :
    lookupA demo_mgr.font_set.map ((⟨(), ()⟩ : Spec Unit Unit)).id = none ∧
    (demo_mgr.fetch ⟨(), ()⟩).1 = .ok ⟨0⟩ ∧
    (demo_mgr.fetch ⟨(), ()⟩).2.2 = 1 ∧
    ∀ msg, (demo_mgr.fetch ⟨(), ()⟩).1 ≠ .error (.unknownFont msg) := by
  refine ⟨rfl, rfl, rfl, ?_⟩
  intro msg h
  rw [show (demo_mgr.fetch ⟨(), ()⟩).1 = Except.ok (⟨0⟩ : Index) from rfl] at h
  exact Except.noConfusion h

/-!
## Lemmas about BTreeMap-style collection and the width compiler
-/

theorem btreeExtend_of_not_mem {β : Type} (m : Char → Option β) {L : List (Char × β)}
    {c : Char} (h : ∀ q ∈ L, q.1 ≠ c) : btreeExtend m L c = m c := by
  induction L generalizing m with
  | nil => rfl
  | cons q rest ih =>
    unfold btreeExtend at ih ⊢
    rw [List.foldl_cons]
    rw [ih _ (fun q hq => h q (List.mem_cons_of_mem _ hq))]
    unfold btreeInsert
    exact if_neg (fun hc => h q (List.mem_cons_self q rest) hc.symm)

theorem btreeExtend_agree {β : Type} (m : Char → Option β) {L : List (Char × β)}
    {c : Char} {v : β} (hagree : ∀ q ∈ L, q.1 = c → q.2 = v)
    (hmem : ∃ q ∈ L, q.1 = c) : btreeExtend m L c = some v := by
  induction L generalizing m with
  | nil => exact absurd hmem (by simp)
  | cons q rest ih =>
    unfold btreeExtend at ih ⊢
    rw [List.foldl_cons]
    by_cases hr : ∃ q' ∈ rest, q'.1 = c
    · exact ih _ (fun q' hq' => hagree q' (List.mem_cons_of_mem _ hq')) hr
    · have hq : q.1 = c := by
        obtain ⟨q', hq', hq'c⟩ := hmem
        rcases List.mem_cons.mp hq' with h | h
        · exact h ▸ hq'c
        · exact absurd ⟨q', h, hq'c⟩ hr
      have : btreeExtend (btreeInsert m q.1 q.2) rest c = btreeInsert m q.1 q.2 c :=
        btreeExtend_of_not_mem _ (fun q' hq' hc => hr ⟨q', hq', hc⟩)
      unfold btreeExtend at this
      rw [this]
      unfold btreeInsert
      rw [if_pos hq.symm]
      exact congrArg some (hagree q (List.mem_cons_self q rest) hq)

theorem btreeExtend_mem_of_some {β : Type} {m : Char → Option β} {L : List (Char × β)}
    {c : Char} {v : β} (h : btreeExtend m L c = some v) : (c, v) ∈ L ∨ m c = some v := by
  induction L generalizing m with
  | nil => exact Or.inr h
  | cons q rest ih =>
    unfold btreeExtend at h ih
    rw [List.foldl_cons] at h
    rcases ih h with h' | h'
    · exact Or.inl (List.mem_cons_of_mem _ h')
    · unfold btreeInsert at h'
      split at h'
      · rename_i hc
        left
        have hv : q.2 = v := Option.some.inj h'
        have : (c, v) = q := by
          cases q
          simp_all
        exact this ▸ List.mem_cons_self q rest
      · exact Or.inr h'

theorem check_ok_iff (s : Width.Spec) (g : Int) :
    Width.check s g = .ok () ↔ ∀ p ∈ s, p.2 ≤ g := by
  induction s with
  | nil => simp [Width.check]
  | cons p rest ih =>
    unfold Width.check
    by_cases hp : g < p.2
    · rw [if_pos hp]
      constructor
      · intro h
        exact absurd h (by simp)
      · intro h
        exact absurd (h p (List.mem_cons_self p rest)) (not_le.mpr hp)
    · rw [if_neg hp, ih]
      constructor
      · intro h q hq
        rcases List.mem_cons.mp hq with rfl | hq'
        · exact not_lt.mp hp
        · exact h q hq'
      · intro h q hq
        exact h q (List.mem_cons_of_mem _ hq)

theorem check_error_shape (s : Width.Spec) (g : Int) (e : FontError) :
    Width.check s g = .error e → ∃ p ∈ s, g < p.2 ∧ e = .overlyLargeOverride g p.2 := by
  induction s with
  | nil => intro h; exact absurd h (by simp [Width.check])
  | cons p rest ih =>
    unfold Width.check
    by_cases hp : g < p.2
    · rw [if_pos hp]
      intro h
      exact ⟨p, List.mem_cons_self p rest, hp, (Except.error.inj h).symm⟩
    · rw [if_neg hp]
      intro h
      obtain ⟨q, hq, hgq, he⟩ := ih h
      exact ⟨q, List.mem_cons_of_mem _ hq, hgq, he⟩

theorem check_error_of_large (s : Width.Spec) (g : Int) (h : ∃ p ∈ s, g < p.2) :
    ∃ e, Width.check s g = .error e := by
  cases hc : Width.check s g with
  | error e => exact ⟨e, rfl⟩
  | ok u =>
    cases u
    obtain ⟨p, hp, hgp⟩ := h
    exact absurd ((check_ok_iff s g).mp hc p hp) (not_le.mpr hgp)

theorem expand_map_agree {s : Width.Spec} {cl : String} {l : Int} {c : Char}
    (hmem : (cl, l) ∈ s) (hc : c ∈ cl.toList)
    (hagree : ∀ cl' l', (cl', l') ∈ s → c ∈ cl'.toList → l' = l) :
    Width.expand_map s c = some l := by
  unfold Width.expand_map btreeCollect
  apply btreeExtend_agree
  · intro q hq hqc
    obtain ⟨p, hp, hqp⟩ := List.mem_flatMap.mp hq
    obtain ⟨ch, hch, hchq⟩ := List.mem_map.mp hqp
    have h1 : q.2 = p.2 := by rw [← hchq]
    have h2 : ch = c := by rw [← hchq] at hqc; exact hqc
    rw [h1]
    exact hagree p.1 p.2 hp (h2 ▸ hch)
  · exact ⟨(c, l), List.mem_flatMap.mpr ⟨(cl, l), hmem, List.mem_map.mpr ⟨c, hc, rfl⟩⟩, rfl⟩

theorem expand_map_not_mem {s : Width.Spec} {c : Char}
    (h : ∀ p ∈ s, c ∉ p.1.toList) : Width.expand_map s c = none := by
  unfold Width.expand_map btreeCollect
  apply btreeExtend_of_not_mem
  intro q hq hqc
  obtain ⟨p, hp, hqp⟩ := List.mem_flatMap.mp hq
  obtain ⟨ch, hch, hchq⟩ := List.mem_map.mp hqp
  exact h p hp (by rw [← hchq] at hqc; exact hqc ▸ hch)

theorem expand_map_mem_of_some {s : Width.Spec} {c : Char} {v : Int}
    (h : Width.expand_map s c = some v) : ∃ p ∈ s, p.2 = v ∧ c ∈ p.1.toList := by
  unfold Width.expand_map btreeCollect at h
  rcases btreeExtend_mem_of_some h with h' | h'
  · obtain ⟨p, hp, hqp⟩ := List.mem_flatMap.mp h'
    obtain ⟨ch, hch, hchq⟩ := List.mem_map.mp hqp
    have h2 : ch = c := congrArg Prod.fst hchq
    have h1 : p.2 = v := congrArg Prod.snd hchq
    exact ⟨p, hp, h1, h2 ▸ hch⟩
  · exact absurd h' (by simp)

/-- C6 (amended): width-override compilation fails (with an
`OverlyLargeOverride{grid_width, override_width}` error naming an offending
override) iff some class's override exceeds the grid width; on success, every
character *all of whose containing classes agree on one length* gets that
length, and every character in no class gets the grid width.  (The unamended
"every character of every class gets that class's length" fails when classes
overlap with different lengths: one of them wins.) -/
theorem c6_width_compilation (s : Width.Spec) (g : Int) :
    ((∃ e, Width.Spec.into_map s g = .error e) ↔ ∃ p ∈ s, g < p.2) ∧
    (∀ e, Width.Spec.into_map s g = .error e →
      ∃ p ∈ s, g < p.2 ∧ e = FontError.overlyLargeOverride g p.2) ∧
    (∀ m, Width.Spec.into_map s g = .ok m →
      (∀ cl l c, (cl, l) ∈ s → c ∈ cl.toList →
        (∀ cl' l', (cl', l') ∈ s → c ∈ cl'.toList → l' = l) → m.get c = l) ∧
      (∀ c, (∀ p ∈ s, c ∉ p.1.toList) → m.get c = g)) := by
  refine ⟨⟨?_, ?_⟩, ?_, ?_⟩
  · rintro ⟨e, he⟩
    unfold Width.Spec.into_map at he
    split at he
    · obtain ⟨p, hp, hgp, -⟩ := check_error_shape s g _ (by assumption)
      exact ⟨p, hp, hgp⟩
    · exact absurd he (by simp)
  · intro h
    obtain ⟨e, he⟩ := check_error_of_large s g h
    exact ⟨e, by unfold Width.Spec.into_map; rw [he]⟩
  · intro e he
    unfold Width.Spec.into_map at he
    split at he
    · exact (Except.error.inj he) ▸ check_error_shape s g _ (by assumption)
    · exact absurd he (by simp)
  · intro m hm
    unfold Width.Spec.into_map at hm
    split at hm
    · exact absurd hm (by simp)
    · replace hm := Except.ok.inj hm
      subst hm
      constructor
      · intro cl l c hmem hc hagree
        unfold Width.Map.get
        dsimp only
        rw [expand_map_agree hmem hc hagree]
        rfl
      · intro c hnone
        unfold Width.Map.get
        dsimp only
        rw [expand_map_not_mem hnone]
        rfl

/-- Counterexample to C6 as stated: classes `"ab" -> 1` and `"b" -> 2` overlap
on `'b'`; compilation succeeds but `'b'`'s compiled width is 2, not the 1 its
class `"ab"` assigns, so "every character of every override class is assigned
that class's override length" fails. -/
theorem c6_counterexample :
    Width.Spec.into_map [("ab", 1), ("b", 2)] 9
        = .ok ⟨Width.expand_map [("ab", 1), ("b", 2)], 9⟩ ∧
    (⟨Width.expand_map [("ab", 1), ("b", 2)], 9⟩ : Width.Map).get 'b' = 2 ∧
    ("ab", 1) ∈ ([("ab", 1), ("b", 2)] : Width.Spec) ∧
    'b' ∈ "ab".toList ∧ (2 : Int) ≠ 1 :=
  ⟨rfl, by decide, by decide, by decide, by decide⟩

/-- Witness for C6 (amended) on the spec `[("ab", 1)]` with grid width 9:
`'a'` compiles to 1 and `'z'` to 9. -/
theorem c6_width_compilation_witness :
    Width.Spec.into_map [("ab", 1)] 9 = .ok ⟨Width.expand_map [("ab", 1)], 9⟩ ∧
    (⟨Width.expand_map [("ab", 1)], 9⟩ : Width.Map).get 'a' = 1 ∧
    (⟨Width.expand_map [("ab", 1)], 9⟩ : Width.Map).get 'z' = 9 :=
  ⟨rfl,
   ((c6_width_compilation [("ab", 1)] 9).2.2 _ rfl).1 "ab" 1 'a' (by decide) (by decide)
     (fun cl' l' hm _ => by simpa using congrArg Prod.snd (List.mem_singleton.mp hm)),
   ((c6_width_compilation [("ab", 1)] 9).2.2 _ rfl).2 'z' (by decide)⟩

/-- C9 (amended): if the grid width is nonnegative and every override length
in an accepted width spec is nonnegative, then every character's compiled
width is nonnegative.  (Unamended, the claim fails: `Spec::check` only
rejects overrides *larger* than the grid width, so a negative override is
accepted and produces a negative width.) -/
theorem c9_nonnegative_widths (s : Width.Spec) (g : Int) (m : Width.Map)
    (hg : 0 ≤ g) (hov : ∀ p ∈ s, 0 ≤ p.2)
    (h : Width.Spec.into_map s g = .ok m) :
    ∀ c, 0 ≤ m.get c := by
  intro c
  unfold Width.Spec.into_map at h
  split at h
  · exact absurd h (by simp)
  · replace h := Except.ok.inj h
    subst h
    unfold Width.Map.get
    dsimp only
    cases hv : Width.expand_map s c with
    | none => exact hg
    | some v =>
      obtain ⟨p, hp, hpv, -⟩ := expand_map_mem_of_some hv
      exact hpv ▸ hov p hp

/-- Counterexample to C9 as stated: the override `"a" -> -1` is accepted
against grid width 9 (the check only rejects overrides exceeding the grid
width), and `'a'` compiles to the negative width -1. -/
theorem c9_counterexample :
    Width.Spec.into_map [("a", -1)] 9 = .ok ⟨Width.expand_map [("a", -1)], 9⟩ ∧
    (⟨Width.expand_map [("a", -1)], 9⟩ : Width.Map).get 'a' = -1 ∧
    ¬(0 ≤ (⟨Width.expand_map [("a", -1)], 9⟩ : Width.Map).get 'a') :=
  ⟨rfl, by decide, by decide⟩

/-- Witness for C9 (amended) on the accepted spec `[("i", 1)]`, grid width 9. -/
theorem c9_nonnegative_widths_witness :
    (0 : Int) ≤ 9 ∧
    0 ≤ (⟨Width.expand_map [("i", 1)], 9⟩ : Width.Map).get 'i' :=
  ⟨by norm_num,
   c9_nonnegative_widths [("i", 1)] 9 _ (by norm_num) (by decide) rfl 'i'⟩

/-!
## Lemmas about the kerning compiler
-/

/-- The pair entry `p` *covers* the character pair `(l, r)` when both of its
class names resolve and `l`/`r` lie in the respective character sets. -/
def Kerning.covers (s : Kerning.Spec) (p : (String × String) × Int) (l r : Char) : Prop :=
  ∃ ls rs, lookupA s.left p.1.1 = some ls ∧ lookupA s.right p.1.2 = some rs ∧
    l ∈ ls.toList ∧ r ∈ rs.toList

theorem btreeExtend_const {β : Type} (m : Char → Option β) (L : List Char) (v : β)
    (x : Char) :
    btreeExtend m (L.map fun r => (r, v)) x = if x ∈ L then some v else m x := by
  induction L generalizing m with
  | nil => simp [btreeExtend]
  | cons a rest ih =>
    rw [List.map_cons]
    unfold btreeExtend at ih ⊢
    rw [List.foldl_cons, ih]
    unfold btreeInsert
    by_cases hx : x ∈ rest
    · rw [if_pos hx, if_pos (List.mem_cons_of_mem _ hx)]
    · rw [if_neg hx]
      by_cases ha : x = a
      · rw [if_pos ha, if_pos (ha ▸ List.mem_cons_self a rest)]
      · rw [if_neg ha, if_neg (fun hc => (List.mem_cons.mp hc).elim ha hx)]

theorem addLeft_sem (rights : String) (len : Int) (kp : Kerning.Pairs) (l₀ l r : Char) :
    ((Kerning.addLeft rights len kp l₀ l).bind fun lm => lm r)
      = if l = l₀ ∧ r ∈ rights.toList then some len
        else (kp l).bind fun lm => lm r := by
  unfold Kerning.addLeft
  cases hk : kp l₀ with
  | none =>
    unfold btreeInsert
    dsimp only
    by_cases hl : l = l₀
    · subst hl
      rw [if_pos rfl]
      show btreeCollect (rights.toList.map fun r' => (r', len)) r = _
      unfold btreeCollect
      rw [btreeExtend_const]
      by_cases hr : r ∈ rights.toList
      · rw [if_pos hr, if_pos ⟨rfl, hr⟩]
      · rw [if_neg hr, if_neg (fun hc => hr hc.2), hk]
        rfl
    · rw [if_neg hl, if_neg (fun hc => hl hc.1)]
  | some lmap =>
    unfold btreeInsert
    dsimp only
    by_cases hl : l = l₀
    · subst hl
      rw [if_pos rfl]
      show btreeExtend lmap (rights.toList.map fun r' => (r', len)) r = _
      rw [btreeExtend_const]
      by_cases hr : r ∈ rights.toList
      · rw [if_pos hr, if_pos ⟨rfl, hr⟩]
      · rw [if_neg hr, if_neg (fun hc => hr hc.2), hk]
        rfl
    · rw [if_neg hl, if_neg (fun hc => hl hc.1)]

theorem addLefts_sem (rights : String) (len : Int) (L : List Char) (kp : Kerning.Pairs)
    (l r : Char) :
    (((L.foldl (Kerning.addLeft rights len) kp) l).bind fun lm => lm r)
      = if l ∈ L ∧ r ∈ rights.toList then some len
        else (kp l).bind fun lm => lm r := by
  induction L generalizing kp with
  | nil => simp
  | cons a rest ih =>
    rw [List.foldl_cons, ih, addLeft_sem]
    by_cases h1 : l ∈ rest <;> by_cases h2 : l = a <;> by_cases h3 : r ∈ rights.toList <;>
      simp [h1, h2, String.toList] at h3 ⊢ <;> simp [h3]

theorem resolveClass_of_lookup {s : Kerning.Spec} {dir : Kerning.Direction} {cl : String} :
    s.resolveClass dir cl
      = match lookupA (s.class_table dir) cl with
        | some chars => .ok chars
        | none => .error (.missingClass dir cl) := rfl

theorem addPair_ok_inv {s : Kerning.Spec} {kp kp' : Kerning.Pairs}
    {p : (String × String) × Int} (h : s.addPair kp p = .ok kp') :
    ∃ ls rs, lookupA s.left p.1.1 = some ls ∧ lookupA s.right p.1.2 = some rs ∧
      kp' = ls.toList.foldl (Kerning.addLeft rs p.2) kp := by
  unfold Kerning.Spec.addPair Kerning.Spec.resolveClass at h
  cases h1 : lookupA (s.class_table .left) p.1.1 with
  | none => rw [h1] at h; exact absurd h (by simp)
  | some ls =>
    rw [h1] at h
    cases h2 : lookupA (s.class_table .right) p.1.2 with
    | none => rw [h2] at h; exact absurd h (by simp)
    | some rs =>
      rw [h2] at h
      exact ⟨ls, rs, h1, h2, (Except.ok.inj h).symm⟩

theorem addPair_error_inv {s : Kerning.Spec} {kp : Kerning.Pairs}
    {p : (String × String) × Int} {e : Kerning.Error} (h : s.addPair kp p = .error e) :
    (lookupA s.left p.1.1 = none ∧ e = .missingClass .left p.1.1) ∨
    (lookupA s.right p.1.2 = none ∧ e = .missingClass .right p.1.2) := by
  unfold Kerning.Spec.addPair Kerning.Spec.resolveClass at h
  cases h1 : lookupA (s.class_table .left) p.1.1 with
  | none =>
    rw [h1] at h
    exact Or.inl ⟨h1, (Except.error.inj h).symm⟩
  | some ls =>
    rw [h1] at h
    cases h2 : lookupA (s.class_table .right) p.1.2 with
    | none =>
      rw [h2] at h
      exact Or.inr ⟨h2, (Except.error.inj h).symm⟩
    | some rs =>
      rw [h2] at h
      exact absurd h (by simp)

theorem addPair_error_of_missing {s : Kerning.Spec} (kp : Kerning.Pairs)
    {p : (String × String) × Int}
    (h : lookupA s.left p.1.1 = none ∨ lookupA s.right p.1.2 = none) :
    ∃ e, s.addPair kp p = .error e := by
  cases hres : s.addPair kp p with
  | error e => exact ⟨e, rfl⟩
  | ok kp' =>
    obtain ⟨ls, rs, h1, h2, -⟩ := addPair_ok_inv hres
    rcases h with h | h
    · rw [h1] at h; exact absurd h (by simp)
    · rw [h2] at h; exact absurd h (by simp)

theorem pairsFold_error_iff (s : Kerning.Spec) (ps : Kerning.PairTable)
    (kp : Kerning.Pairs) :
    (∃ e, s.pairsFold ps kp = .error e) ↔
      ∃ p ∈ ps, lookupA s.left p.1.1 = none ∨ lookupA s.right p.1.2 = none := by
  induction ps generalizing kp with
  | nil => simp [Kerning.Spec.pairsFold]
  | cons p rest ih =>
    unfold Kerning.Spec.pairsFold
    cases hadd : s.addPair kp p with
    | error e =>
      constructor
      · intro _
        rcases addPair_error_inv hadd with ⟨h1, -⟩ | ⟨h2, -⟩
        · exact ⟨p, List.mem_cons_self p rest, Or.inl h1⟩
        · exact ⟨p, List.mem_cons_self p rest, Or.inr h2⟩
      · intro _
        exact ⟨e, rfl⟩
    | ok kp' =>
      rw [ih kp']
      constructor
      · rintro ⟨q, hq, hd⟩
        exact ⟨q, List.mem_cons_of_mem _ hq, hd⟩
      · rintro ⟨q, hq, hd⟩
        rcases List.mem_cons.mp hq with rfl | hq'
        · obtain ⟨e, he⟩ := addPair_error_of_missing kp hd
          rw [hadd] at he
          exact absurd he (by simp)
        · exact ⟨q, hq', hd⟩

theorem pairsFold_error_shape (s : Kerning.Spec) (ps : Kerning.PairTable)
    (kp : Kerning.Pairs) (e : Kerning.Error) (h : s.pairsFold ps kp = .error e) :
    ∃ p ∈ ps,
      (lookupA s.left p.1.1 = none ∧ e = .missingClass .left p.1.1) ∨
      (lookupA s.right p.1.2 = none ∧ e = .missingClass .right p.1.2) := by
  induction ps generalizing kp with
  | nil => exact absurd h (by simp [Kerning.Spec.pairsFold])
  | cons p rest ih =>
    unfold Kerning.Spec.pairsFold at h
    cases hadd : s.addPair kp p with
    | error e' =>
      rw [hadd] at h
      exact ⟨p, List.mem_cons_self p rest, (Except.error.inj h) ▸ addPair_error_inv hadd⟩
    | ok kp' =>
      rw [hadd] at h
      obtain ⟨q, hq, he⟩ := ih kp' h
      exact ⟨q, List.mem_cons_of_mem _ hq, he⟩

theorem pairsFold_ok_sem (s : Kerning.Spec) (ps : Kerning.PairTable)
    (kp kpf : Kerning.Pairs) (h : s.pairsFold ps kp = .ok kpf) (l r : Char) :
    ((∀ p ∈ ps, ¬ Kerning.covers s p l r) →
      ((kpf l).bind fun lm => lm r) = ((kp l).bind fun lm => lm r)) ∧
    (∀ v, (∃ p ∈ ps, Kerning.covers s p l r) →
      (∀ p ∈ ps, Kerning.covers s p l r → p.2 = v) →
      ((kpf l).bind fun lm => lm r) = some v) := by
  induction ps generalizing kp with
  | nil =>
    unfold Kerning.Spec.pairsFold at h
    replace h := Except.ok.inj h
    subst h
    exact ⟨fun _ => rfl, fun v hex _ => absurd hex (by simp)⟩
  | cons p rest ih =>
    unfold Kerning.Spec.pairsFold at h
    cases hadd : s.addPair kp p with
    | error e => rw [hadd] at h; exact absurd h (by simp)
    | ok kp₁ =>
      rw [hadd] at h
      obtain ⟨ls, rs, h1, h2, hkp₁⟩ := addPair_ok_inv hadd
      have hcov : Kerning.covers s p l r ↔ (l ∈ ls.toList ∧ r ∈ rs.toList) := by
        constructor
        · rintro ⟨ls', rs', h1', h2', hl, hr⟩
          rw [h1] at h1'
          rw [h2] at h2'
          exact ⟨(Option.some.inj h1') ▸ hl, (Option.some.inj h2') ▸ hr⟩
        · rintro ⟨hl, hr⟩
          exact ⟨ls, rs, h1, h2, hl, hr⟩
      have hkp₁sem : ((kp₁ l).bind fun lm => lm r)
          = if l ∈ ls.toList ∧ r ∈ rs.toList then some p.2
            else (kp l).bind fun lm => lm r := by
        rw [hkp₁]
        exact addLefts_sem rs p.2 ls.toList kp l r
      constructor
      · intro hnone
        have hnp : ¬ (l ∈ ls.toList ∧ r ∈ rs.toList) :=
          fun hc => hnone p (List.mem_cons_self p rest) (hcov.mpr hc)
        rw [(ih kp₁ h).1 (fun q hq => hnone q (List.mem_cons_of_mem _ hq)), hkp₁sem,
          if_neg hnp]
      · intro v hex hag
        by_cases hrest : ∃ q ∈ rest, Kerning.covers s q l r
        · exact (ih kp₁ h).2 v hrest (fun q hq hc => hag q (List.mem_cons_of_mem _ hq) hc)
        · have hp : Kerning.covers s p l r := by
            obtain ⟨q, hq, hqc⟩ := hex
            rcases List.mem_cons.mp hq with rfl | hq'
            · exact hqc
            · exact absurd ⟨q, hq', hqc⟩ hrest
          rw [(ih kp₁ h).1 (fun q hq hc => hrest ⟨q, hq, hc⟩), hkp₁sem,
            if_pos (hcov.mp hp)]
          exact congrArg some (hag p (List.mem_cons_self p rest) hp)

/-- C7 (amended): kerning compilation fails with a `MissingClass{direction,
class}` error iff some pair entry names a left class absent from the left
table or a right class absent from the right table; on success, every
character pair `(l, r)` *all of whose covering pair entries agree on one
length* gets that length as its spacing (replacing the default), and every
uncovered pair gets the default spacing.  (The unamended "every covered pair
gets every covering entry's length" fails when two pair entries overlap on
`(l, r)` with different lengths: one of them wins.) -/
theorem c7_kerning_compilation (s : Kerning.Spec) (d : Int) :
    ((∃ e, s.into_map d = .error e) ↔
      ∃ p ∈ s.pairs, lookupA s.left p.1.1 = none ∨ lookupA s.right p.1.2 = none) ∧
    (∀ e, s.into_map d = .error e → ∃ p ∈ s.pairs,
      (lookupA s.left p.1.1 = none ∧ e = .missingClass .left p.1.1) ∨
      (lookupA s.right p.1.2 = none ∧ e = .missingClass .right p.1.2)) ∧
    (∀ m, s.into_map d = .ok m →
      (∀ p ∈ s.pairs, ∀ l r, Kerning.covers s p l r →
        (∀ q ∈ s.pairs, Kerning.covers s q l r → q.2 = p.2) →
        m.spacing l r = p.2) ∧
      (∀ l r, (∀ p ∈ s.pairs, ¬ Kerning.covers s p l r) → m.spacing l r = d)) := by
  refine ⟨⟨?_, ?_⟩, ?_, ?_⟩
  · rintro ⟨e, he⟩
    unfold Kerning.Spec.into_map at he
    cases hf : s.pairsFold s.pairs (fun _ => none) with
    | error e' => exact (pairsFold_error_iff s s.pairs _).mp ⟨e', hf⟩
    | ok kp => rw [hf] at he; exact absurd he (by simp)
  · intro hd
    obtain ⟨e, he⟩ := (pairsFold_error_iff s s.pairs (fun _ => none)).mpr hd
    refine ⟨e, ?_⟩
    unfold Kerning.Spec.into_map
    rw [he]
  · intro e he
    unfold Kerning.Spec.into_map at he
    cases hf : s.pairsFold s.pairs (fun _ => none) with
    | error e' =>
      rw [hf] at he
      exact (Except.error.inj he) ▸ pairsFold_error_shape s s.pairs _ e' hf
    | ok kp => rw [hf] at he; exact absurd he (by simp)
  · intro m hm
    unfold Kerning.Spec.into_map at hm
    cases hf : s.pairsFold s.pairs (fun _ => none) with
    | error e' => rw [hf] at hm; exact absurd hm (by simp)
    | ok kpf =>
      rw [hf] at hm
      replace hm := Except.ok.inj hm
      subst hm
      constructor
      · intro p hp l r hc hag
        unfold Kerning.Map.spacing
        dsimp only
        rw [(pairsFold_ok_sem s s.pairs _ kpf hf l r).2 p.2 ⟨p, hp, hc⟩
          (fun q hq hqc => hag q hq hqc)]
        rfl
      · intro l r hnone
        unfold Kerning.Map.spacing
        dsimp only
        rw [(pairsFold_ok_sem s s.pairs _ kpf hf l r).1 hnone]
        rfl

/-- The overlapping kerning spec used as a counterexample to C7 as stated:
two pair entries cover the character pair `('a', 'x')` with different
lengths. -/
def kerning_cex : Kerning.Spec :=
  { left := [("L", "a"), ("L2", "a")]
    right := [("R", "x"), ("R2", "x")]
    pairs := [(("L", "R"), 1), (("L2", "R2"), 2)] }

/-- Counterexample to C7 as stated: compilation of `kerning_cex` succeeds, the
pair `(("L","R"), 1)` covers `('a', 'x')` (`'a' ∈ left["L"]`,
`'x' ∈ right["R"]`), yet the compiled spacing of `('a', 'x')` is 2, not 1 —
the later overlapping entry replaced it. -/
theorem c7_counterexample :
    (Kerning.Spec.into_map kerning_cex 5).map (fun m => m.spacing 'a' 'x') = .ok 2 ∧
    (("L", "R"), 1) ∈ kerning_cex.pairs ∧
    lookupA kerning_cex.left "L" = some "a" ∧
    lookupA kerning_cex.right "R" = some "x" ∧
    'a' ∈ "a".toList ∧ 'x' ∈ "x".toList ∧ (2 : Int) ≠ 1 :=
  ⟨rfl, by decide, by decide, by decide, by decide, by decide, by decide⟩

/-- The single-pair kerning spec used as the C7 witness. -/
def kerning_demo : Kerning.Spec :=
  { left := [("L", "ab")], right := [("R", "xy")], pairs := [(("L", "R"), -2)] }

/-- The compiled kerning-pairs accumulator of `kerning_demo`. -/
def kerning_demo_pairs : Kerning.Pairs :=
  "ab".toList.foldl (Kerning.addLeft "xy" (-2)) (fun _ => none)

/-- Witness for C7 (amended): in `kerning_demo`, `('a', 'x')` is covered only
by the `-2` entry and compiles to spacing `-2` (kerning may be negative);
the uncovered pair `('q', 'q')` gets the default spacing 5. -/
theorem c7_kerning_compilation_witness :
    Kerning.Spec.into_map kerning_demo 5 = .ok ⟨kerning_demo_pairs, 5⟩ ∧
    (⟨kerning_demo_pairs, 5⟩ : Kerning.Map).spacing 'a' 'x' = -2 ∧
    (⟨kerning_demo_pairs, 5⟩ : Kerning.Map).spacing 'q' 'q' = 5 :=
  ⟨rfl,
   ((c7_kerning_compilation kerning_demo 5).2.2 _ rfl).1 (("L", "R"), -2) (by decide)
     'a' 'x' ⟨"ab", "xy", rfl, rfl, by decide, by decide⟩
     (fun q hq _ => by simpa using congrArg Prod.snd (List.mem_singleton.mp hq)),
   ((c7_kerning_compilation kerning_demo 5).2.2 _ rfl).2 'q' 'q'
     (by
       rintro p hp ⟨ls, rs, h1, h2, h3, -⟩
       have hpv : p = (("L", "R"), -2) := List.mem_singleton.mp hp
       subst hpv
       have h1' := h1
       rw [show lookupA kerning_demo.left "L" = some "ab" from rfl] at h1'
       have hls : ls = "ab" := (Option.some.inj h1').symm
       subst hls
       exact absurd h3 (by decide))⟩

/-!
## Realignment lemmas (C4)
-/

theorem push_self (g : GlyphSet) (src : Rect) (d : Delta) :
    ∃ p ∈ GlyphSet.push g src d, p.1 = src ∧ d ∈ p.2 := by
  induction g with
  | nil => exact ⟨(src, [d]), by simp [GlyphSet.push]⟩
  | cons q rest ih =>
    rcases q with ⟨r, ds⟩
    unfold GlyphSet.push
    by_cases hr : r = src
    · rw [if_pos hr]
      exact ⟨(r, ds ++ [d]), List.mem_cons_self _ _, hr, by simp⟩
    · rw [if_neg hr]
      obtain ⟨p, hp, hps, hpd⟩ := ih
      exact ⟨p, List.mem_cons_of_mem _ hp, hps, hpd⟩

theorem push_sub {g : GlyphSet} {src : Rect} {d : Delta} :
    ∀ p ∈ GlyphSet.push g src d, ∀ d' ∈ p.2,
      d' = d ∨ ∃ q ∈ g, q.1 = p.1 ∧ d' ∈ q.2 := by
  induction g with
  | nil =>
    intro p hp d' hd'
    rcases List.mem_singleton.mp hp with rfl
    rcases List.mem_singleton.mp hd' with rfl
    exact Or.inl rfl
  | cons q rest ih =>
    rcases q with ⟨r, ds⟩
    intro p hp d' hd'
    unfold GlyphSet.push at hp
    by_cases hr : r = src
    · rw [if_pos hr] at hp
      rcases List.mem_cons.mp hp with rfl | hp'
      · rcases List.mem_append.mp hd' with h | h
        · exact Or.inr ⟨(r, ds), List.mem_cons_self _ _, rfl, h⟩
        · exact Or.inl (List.mem_singleton.mp h)
      · exact Or.inr ⟨p, List.mem_cons_of_mem _ hp', rfl, hd'⟩
    · rw [if_neg hr] at hp
      rcases List.mem_cons.mp hp with rfl | hp'
      · exact Or.inr ⟨(r, ds), List.mem_cons_self _ _, rfl, hd'⟩
      · rcases ih p hp' d' hd' with h | ⟨q', hq', hq1, hq2⟩
        · exact Or.inl h
        · exact Or.inr ⟨q', List.mem_cons_of_mem _ hq', hq1, hq2⟩

theorem realign_left (g : GlyphSet) (lw tw : Int) :
    GlyphSet.realign g .left lw tw = g := by
  unfold GlyphSet.realign AnchorX.offset
  rfl

theorem realign_right (g : GlyphSet) (lw tw : Int) :
    GlyphSet.realign g .right lw tw
      = g.map fun p => (p.1, p.2.map fun d => { d with dx := d.dx + (tw - lw) }) := by
  unfold GlyphSet.realign AnchorX.offset
  dsimp only
  by_cases h : tw - lw = 0
  · rw [if_pos h, h]
    have hd : (fun d : Delta => ({ dx := d.dx + 0, dy := d.dy } : Delta)) = id := by
      funext d
      cases d
      simp
    conv_rhs =>
      rw [show (fun p : Rect × List Delta =>
        (p.1, p.2.map fun d => ({ dx := d.dx + 0, dy := d.dy } : Delta)))
          = fun p => (p.1, p.2.map id) from by rw [hd]]
    simp
  · rw [if_neg h]

/-- Every per-character advance (previous width plus kerning) is nonnegative. -/
def AdvancesNonneg (m : Metrics) : Prop :=
  ∀ c c', 0 ≤ (m.chars c).width + (m.chars c).kerning c'

/-- The layout of a string with the `Right` alignment, starting from a fresh
builder (as `Builder::build` does before realigning and merging). -/
def right_layout (m : Metrics) (s : List Char) : Builder :=
  Builder.do_layout m ((Builder.new m).with_alignment .right) s

theorem char_src_rect_size (m : Metrics) (c : Char) (e : Entry) :
    (char_src_rect m c e).size = ⟨e.width, m.char.h⟩ := rfl

theorem layout_char_eq_none (m : Metrics) (b : Builder) (c : Char)
    (h : b.last_char_metrics = none) :
    b.layout_char m c = { b with
      current_line := { size := { w := b.current_line.size.w + (m.chars c).width
                                  h := b.current_line.size.h }
                        glyphs := b.current_line.glyphs.push
                          (char_src_rect m c (m.chars c)) b.cursor }
      last_char_metrics := some (m.chars c) } := by
  unfold Builder.layout_char
  rw [h]

theorem layout_char_eq_some (m : Metrics) (b : Builder) (c : Char) (e : Entry)
    (h : b.last_char_metrics = some e) :
    b.layout_char m c = { b with
      cursor := { b.cursor with dx := b.cursor.dx + e.width + e.kerning c }
      current_line := { size := { w := b.current_line.size.w + (m.chars c).width + e.kerning c
                                  h := b.current_line.size.h }
                        glyphs := b.current_line.glyphs.push
                          (char_src_rect m c (m.chars c))
                          { b.cursor with dx := b.cursor.dx + e.width + e.kerning c } }
      last_char_metrics := some (m.chars c) } := by
  unfold Builder.layout_char Builder.move_right_with_kerning
  rw [h]

/-- A committed line is well-formed: some recorded glyph delta is right-most
and sits exactly one source-width short of the line's accumulated width. -/
def LineOk (line : Line) : Prop :=
  ∃ p ∈ line.glyphs, ∃ d ∈ p.2,
    d.dx = line.size.w - p.1.size.w ∧
    ∀ q ∈ line.glyphs, ∀ d' ∈ q.2, d'.dx ≤ d.dx

/-- The in-progress line is well-formed: either untouched (fresh after a line
feed), or the last character's glyph (an entry of the metrics table) was
pushed at the cursor, the cursor sits one last-width short of the
accumulated width, and no recorded delta lies right of the cursor. -/
def CurOk (m : Metrics) (b : Builder) : Prop :=
  (b.last_char_metrics = none ∧ b.current_line.glyphs = [] ∧
    b.current_line.size.w = 0 ∧ b.cursor.dx = 0) ∨
  (∃ c₀, b.last_char_metrics = some (m.chars c₀) ∧
    b.cursor.dx = b.current_line.size.w - (m.chars c₀).width ∧
    (∃ p ∈ b.current_line.glyphs, p.1.size.w = (m.chars c₀).width ∧
      ∃ d ∈ p.2, d.dx = b.cursor.dx) ∧
    (∀ p ∈ b.current_line.glyphs, ∀ d ∈ p.2, d.dx ≤ b.cursor.dx))

/-- The builder invariant maintained by the layout loop on carriage-return-free
input with nonnegative advances. -/
def BuilderInv (m : Metrics) (b : Builder) : Prop :=
  CurOk m b ∧ ∀ line ∈ b.finished_lines, LineOk line

theorem inv_layout_char (m : Metrics) (hm : AdvancesNonneg m) (b : Builder) (c : Char)
    (h : BuilderInv m b) : BuilderInv m (b.layout_char m c) := by
  obtain ⟨hcur, hfin⟩ := h
  rcases hcur with ⟨hlast, hglyphs, hw, hdx⟩ |
    ⟨c₀, hlast, hdx, ⟨p, hp, hps, d, hd, hddx⟩, hbound⟩
  · rw [layout_char_eq_none m b c hlast]
    refine ⟨Or.inr ⟨c, rfl, ?_, ?_, ?_⟩, hfin⟩
    · dsimp only
      omega
    · obtain ⟨p, hp, hps, hpd⟩ :=
        push_self b.current_line.glyphs (char_src_rect m c (m.chars c)) b.cursor
      exact ⟨p, hp, by rw [hps, char_src_rect_size], b.cursor, hpd, rfl⟩
    · intro q hq d' hd'
      rcases push_sub q hq d' hd' with rfl | ⟨q', hq', -, hqd'⟩
      · exact le_refl _
      · rw [hglyphs] at hq'
        exact absurd hq' (List.not_mem_nil q')
  · rw [layout_char_eq_some m b c (m.chars c₀) hlast]
    refine ⟨Or.inr ⟨c, rfl, ?_, ?_, ?_⟩, hfin⟩
    · dsimp only
      omega
    · obtain ⟨p', hp', hps', hpd'⟩ := push_self b.current_line.glyphs
        (char_src_rect m c (m.chars c))
        { b.cursor with dx := b.cursor.dx + (m.chars c₀).width + (m.chars c₀).kerning c }
      exact ⟨p', hp', by rw [hps', char_src_rect_size], _, hpd', rfl⟩
    · intro q hq d' hd'
      rcases push_sub q hq d' hd' with rfl | ⟨q', hq', -, hqd'⟩
      · exact le_refl _
      · have hadv := hm c₀ c
        have hb := hbound q' hq' d' hqd'
        dsimp only
        omega

theorem inv_line_feed (m : Metrics) (b : Builder) (h : BuilderInv m b) :
    BuilderInv m (b.line_feed m) := by
  obtain ⟨hcur, hfin⟩ := h
  unfold Builder.line_feed
  by_cases hw : b.current_line.size.w = 0
  · rw [if_pos hw]
    exact ⟨hcur, hfin⟩
  · rw [if_neg hw]
    refine ⟨Or.inl ⟨rfl, rfl, rfl, rfl⟩, ?_⟩
    intro line hline
    dsimp only at hline
    rcases List.mem_append.mp hline with hold | hnew
    · exact hfin line hold
    · rcases List.mem_singleton.mp hnew with rfl
      rcases hcur with ⟨-, -, hw0, -⟩ | ⟨c₀, -, hdx, ⟨p, hp, hps, d, hd, hddx⟩, hbound⟩
      · exact absurd hw0 hw
      · exact ⟨p, hp, d, hd, by omega, fun q hq d' hd' => hddx ▸ hbound q hq d' hd'⟩

theorem inv_step (m : Metrics) (hm : AdvancesNonneg m) (b : Builder) (c : Char)
    (hc : c ≠ '\r') (h : BuilderInv m b) : BuilderInv m (b.step m c) := by
  unfold Builder.step
  rw [if_neg hc]
  by_cases hn : c = '\n'
  · rw [if_pos hn]
    exact inv_line_feed m b h
  · rw [if_neg hn]
    exact inv_layout_char m hm b c h

theorem inv_foldl (m : Metrics) (hm : AdvancesNonneg m) (s : List Char)
    (hs : ∀ c ∈ s, c ≠ '\r') (b : Builder) (h : BuilderInv m b) :
    BuilderInv m (s.foldl (Builder.step m) b) := by
  induction s generalizing b with
  | nil => exact h
  | cons c rest ih =>
    rw [List.foldl_cons]
    exact ih (fun c' hc' => hs c' (List.mem_cons_of_mem _ hc'))
      _ (inv_step m hm b c (hs c (List.mem_cons_self c rest)) h)

theorem inv_right_layout (m : Metrics) (hm : AdvancesNonneg m) (s : List Char)
    (hs : ∀ c ∈ s, c ≠ '\r') :
    BuilderInv m (right_layout m s) := by
  unfold right_layout Builder.do_layout
  apply inv_line_feed
  apply inv_foldl m hm s hs
  exact ⟨Or.inl ⟨rfl, rfl, rfl, rfl⟩, fun line hline => absurd hline (List.not_mem_nil line)⟩

/-- C4 (amended): `GlyphSet::realign` shifts every recorded delta of a
finished line right by exactly `anchor.offset(total_width - line_width)` —
`total - line` for `Right`, and 0 (the map is skipped) for `Left`; and for a
string *without carriage returns*, under metrics whose advances
(width + kerning) are all nonnegative, every line finished by the
Right-aligned layout loop has, after realignment, a right-most glyph delta
equal to `total_bounds_width` minus that glyph's source width (the source
width of the line's last character).  (Unamended the consequence fails: a
`'\r'` resets the cursor mid-line without resetting the accumulated width,
so the last character's delta no longer sits at `line_width - width`.) -/
theorem c4_realignment :
    (∀ (g : GlyphSet) (lw tw : Int), GlyphSet.realign g .left lw tw = g) ∧
    (∀ (g : GlyphSet) (lw tw : Int),
      GlyphSet.realign g .right lw tw
        = g.map fun p => (p.1, p.2.map fun d => { d with dx := d.dx + (tw - lw) })) ∧
    (∀ (m : Metrics) (s : List Char), '\r' ∉ s → AdvancesNonneg m →
      ∀ line ∈ (right_layout m s).finished_lines,
        ∃ p ∈ GlyphSet.realign line.glyphs .right line.size.w
            (right_layout m s).bounds.size.w,
          ∃ d ∈ p.2,
            d.dx = (right_layout m s).bounds.size.w - p.1.size.w ∧
            ∀ q ∈ GlyphSet.realign line.glyphs .right line.size.w
                (right_layout m s).bounds.size.w,
              ∀ d' ∈ q.2, d'.dx ≤ d.dx) := by
  refine ⟨realign_left, realign_right, ?_⟩
  intro m s hr hm line hline
  obtain ⟨p, hp, d, hd, hddx, hmax⟩ :=
    (inv_right_layout m hm s (fun c hc heq => hr (heq ▸ hc))).2 line hline
  rw [realign_right]
  refine ⟨(p.1, p.2.map fun d' =>
      { d' with dx := d'.dx + ((right_layout m s).bounds.size.w - line.size.w) }),
    List.mem_map.mpr ⟨p, hp, rfl⟩,
    { d with dx := d.dx + ((right_layout m s).bounds.size.w - line.size.w) },
    List.mem_map.mpr ⟨d, hd, rfl⟩, ?_, ?_⟩
  · dsimp only
    omega
  · intro q' hq' d'' hd''
    rcases List.mem_map.mp hq' with ⟨q, hq, rfl⟩
    rcases List.mem_map.mp hd'' with ⟨e', he', rfl⟩
    dsimp only
    have := hmax q hq e' he'
    omega

/-- Witness for C4 (amended) at `big_font` and the string `"ab"` (no carriage
returns; all advances in `big_font` are positive). -/
theorem c4_realignment_witness :
    AdvancesNonneg big_font ∧
    (∀ line ∈ (right_layout big_font "ab".toList).finished_lines,
      ∃ p ∈ GlyphSet.realign line.glyphs .right line.size.w
          (right_layout big_font "ab".toList).bounds.size.w,
        ∃ d ∈ p.2,
          d.dx = (right_layout big_font "ab".toList).bounds.size.w - p.1.size.w ∧
          ∀ q ∈ GlyphSet.realign line.glyphs .right line.size.w
              (right_layout big_font "ab".toList).bounds.size.w,
            ∀ d' ∈ q.2, d'.dx ≤ d.dx) := by
  have hAdv : AdvancesNonneg big_font := by
    intro c c'
    unfold big_font
    dsimp only
    split_ifs <;> simp [Entry.kerning]
  exact ⟨hAdv, c4_realignment.2.2 big_font "ab".toList (by decide) hAdv⟩

/-- Counterexample to C4 as stated: in `"a\rb"` under a uniform 9-wide font
with spacing 1, the carriage return resets the cursor but not the
accumulated line width, so the committed line (width 18, both glyphs at
`dx = 0`) contains *no* delta equal to `total_bounds_width -
glyph_source_width = 18 - 9 = 9` — in particular not its right-most one. -/
theorem c4_counterexample :
    '\r' ∈ "a\rb".toList ∧
    (right_layout (uniform_metrics ⟨9, 9⟩ ⟨1, 1⟩ 9) "a\rb".toList).finished_lines.length = 1 ∧
    (∀ line ∈ (right_layout (uniform_metrics ⟨9, 9⟩ ⟨1, 1⟩ 9) "a\rb".toList).finished_lines,
      line.glyphs.length = 2 ∧
      ∀ p ∈ GlyphSet.realign line.glyphs .right line.size.w
          (right_layout (uniform_metrics ⟨9, 9⟩ ⟨1, 1⟩ 9) "a\rb".toList).bounds.size.w,
        ∀ d ∈ p.2,
          d.dx ≠ (right_layout (uniform_metrics ⟨9, 9⟩ ⟨1, 1⟩ 9) "a\rb".toList).bounds.size.w
                   - p.1.size.w) := by
  refine ⟨by decide, by decide, by decide⟩

/-- Witness for C10 at a concrete metrics set and the string `"\n\r\n"`. -/
theorem c10_empty_lines_witness :
    (Builder.build big_font ((Builder.new big_font).with_alignment .left) "\n\r\n".toList).bounds
      = default ∧
    (Builder.build big_font ((Builder.new big_font).with_alignment .left) "\n\r\n".toList).glyphs
      = [] :=
  c10_empty_lines.2.2 big_font .left "\n\r\n".toList (by decide)

end Ugly
